import Mathlib

/-!
Verification development for `mp_blat.py`: a shallow embedding of the index
parser, the split planner, the file splitter, the worker-pool dispatch and the
result merger, with the properties of the accompanying design document proved
or refuted against it.

File contents are modelled as `List Nat` (one entry per byte); the newline
byte is 10.  Python integers are `Int`, Python `divmod` on them is
`Int.fdiv`/`Int.fmod` (floor semantics).
-/

/-- One parsed line of a `.fai` index file (`FastaIndex.__init__`,
mp_blat.py lines 42-48).  The four numeric fields come from Python `int(...)`
and are therefore arbitrary integers. -/
structure FastaIndex where
  name : String
  length : Int
  offset : Int
  line_bases : Int
  line_width : Int
deriving Repr, DecidableEq, Inhabited

/-- `FastaIndex.end_pos` (lines 50-59): `num_lines, r = divmod(length,
line_bases)`, one extra line when the remainder is positive, and the result is
`offset + length + num_lines` — one newline byte per data line. -/
def FastaIndex.end_pos (r : FastaIndex) : Int :=
  r.offset + r.length +
    (if 0 < r.length.fmod r.line_bases then r.length.fdiv r.line_bases + 1
     else r.length.fdiv r.line_bases)

/-- Whitespace stripped by Python `int(str)` (ASCII range). -/
def isPySpace (c : Char) : Bool :=
  c = ' ' || c = '\t' || c = '\n' || c = '\r' || c = '\x0b' || c = '\x0c'

/-- Value of the digits of a Python integer literal after its first digit:
the grammar is `digit (("_")? digit)*`, so an underscore must sit between two
digits. -/
def digitsRest : Nat → List Char → Option Nat
  | acc, [] => some acc
  | acc, '_' :: c :: cs =>
      if c.isDigit then digitsRest (acc * 10 + (c.toNat - 48)) cs else none
  | _, ['_'] => none
  | acc, c :: cs =>
      if c.isDigit then digitsRest (acc * 10 + (c.toNat - 48)) cs else none

/-- The `digitpart` of a Python integer literal: at least one digit, single
underscores allowed between digits. -/
def digitPart : List Char → Option Nat
  | [] => none
  | c :: cs => if c.isDigit then digitsRest (c.toNat - 48) cs else none

/-- Strip leading and trailing Python whitespace. -/
def stripPy (cs : List Char) : List Char :=
  ((cs.dropWhile isPySpace).reverse.dropWhile isPySpace).reverse

/-- Model of Python `int(s)` on decimal strings: optional surrounding
whitespace, optional sign, then a digit part; `none` models `ValueError`.
(Non-ASCII digits, which CPython also accepts, are out of scope: index fields
are produced by samtools and are ASCII.) -/
def pyInt (cs : List Char) : Option Int :=
  match stripPy cs with
  | '+' :: rest => (digitPart rest).map (fun n => (n : Int))
  | '-' :: rest => (digitPart rest).map (fun n => -(n : Int))
  | rest => (digitPart rest).map (fun n => (n : Int))

/-- Python exceptions raised by the modelled fragments. -/
inductive PyExc
  | nameError
  | typeError
  | valueError
deriving Repr, DecidableEq

/-- Python `line.rstrip('\n')`: remove every trailing newline character. -/
def rstripNl (cs : List Char) : List Char :=
  (cs.reverse.dropWhile (fun c => c = '\n')).reverse

/-- Python `str.split('\t')`: cut at every tab, keeping empty pieces; the
split of the empty string is `[""]`. -/
def splitTab : List Char → List (List Char)
  | [] => [[]]
  | c :: cs =>
      if c = '\t' then [] :: splitTab cs
      else
        match splitTab cs with
        | r :: rs => (c :: r) :: rs
        | [] => [[c]]

/-- `FastaIndex(*data)` applied to the split fields (lines 43-48 and 110):
a field count other than 5 raises `TypeError`; a numeric field rejected by
`int` raises `ValueError`. -/
def buildFastaIndex (fields : List (List Char)) : Except PyExc FastaIndex :=
  match fields with
  | [nm, f1, f2, f3, f4] =>
      match pyInt f1, pyInt f2, pyInt f3, pyInt f4 with
      | some l, some o, some b, some w => .ok ⟨String.mk nm, l, o, b, w⟩
      | _, _, _, _ => .error .valueError
  | _ => .error .typeError

/-- One line of index parsing inside `split` (lines 108-110):
`line.rstrip('\n').split('\t')` followed by `FastaIndex(*data)`. -/
def parseFaiLine (line : String) : Except PyExc FastaIndex :=
  buildFastaIndex (splitTab (rstripNl line.data))

/-- `for i in range(k): num_list[i] += 1` (lines 116-117): add one to each of
the first `k` entries of the list. -/
def incFirst : Nat → List Nat → List Nat
  | 0, l => l
  | _ + 1, [] => []
  | k + 1, x :: xs => (x + 1) :: incFirst k xs

/-- Records-per-partition list (lines 114-117): `num_for_each_file, remainder
= divmod(R, P)`, a list of `P` copies of the quotient, then the remainder
front-loaded one record at a time. -/
def numList (R P : Nat) : List Nat :=
  incFirst (R % P) (List.replicate P (R / P))

/-- The splice-position loop (lines 119-124): `idx` starts at `-1` and grows
by each partition's record count; the accumulator here tracks `idx + 1`, so
the record consulted after adding `n` is number `acc + n - 1`. -/
def splicePosAux (rs : List FastaIndex) : List Nat → Nat → List Int
  | [], _ => []
  | n :: ns, acc =>
      (rs.getD (acc + n - 1) default).end_pos :: splicePosAux rs ns (acc + n)

/-- `splice_pos` (lines 119-124): one cut position for every partition except
the last (`num_list[:-1]`). -/
def splicePos (rs : List FastaIndex) (nums : List Nat) : List Int :=
  splicePosAux rs nums.dropLast 0

/-- `fa_idx_data[-1].end_pos` (line 127): end of the last indexed record. -/
def lastEndPos (rs : List FastaIndex) : Int :=
  (rs.getLast?.getD default).end_pos

/-- `splice_pos_extend` (line 127): `[0] + splice_pos + [end of last
record]`. -/
def splicePosExtend (rs : List FastaIndex) (P : Nat) : List Int :=
  0 :: (splicePos rs (numList rs.length P) ++ [lastEndPos rs])

/-- `block_size` (lines 128-131): differences of consecutive extended splice
positions, `p1 - p2` over `zip(ext[1:], ext[:-1])`. -/
def blockSize (rs : List FastaIndex) (P : Nat) : List Int :=
  List.zipWith (fun p1 p2 => p1 - p2)
    (splicePosExtend rs P).tail (splicePosExtend rs P).dropLast

/-- The writer loop of `split` (lines 140-143): each partition file receives
`fa_in.read(bsize)`, i.e. the next `bsize` bytes of the source; the read
cursor advances by the number of bytes actually obtained.  (The model covers
non-negative requested sizes, the only ones the planner is claimed to
produce.) -/
def splitFiles (src : List Nat) : List Int → Nat → List (List Nat)
  | [], _ => []
  | b :: bs, pos =>
      let chunk := (src.drop pos).take b.toNat
      chunk :: splitFiles src bs (pos + chunk.length)

/-- `res_in.readline()` on a byte stream: everything up to and including the
next newline byte, or the whole rest of the stream when none remains. -/
def takeLine : List Nat → List Nat
  | [] => []
  | b :: bs => if b = 10 then [10] else b :: takeLine bs

/-- The concatenation of the first `n` `readline()` results: the prefix the
merge loop consumes as header; its length is the `res_in.tell()` recorded as
`res_start_pos` (line 185). -/
def takeLines : Nat → List Nat → List Nat
  | 0, _ => []
  | n + 1, bs =>
      let l := takeLine bs
      l ++ takeLines n (bs.drop l.length)

/-- The merge step (lines 180-191): write the first five lines of the first
result file, remember the offset reached, then for every result file (the
first included) seek to that same offset and copy the rest. -/
def mergeOutputs (files : List (List Nat)) : List Nat :=
  match files with
  | [] => []
  | f0 :: _ =>
      let hdr := takeLines 5 f0
      hdr ++ (files.map (fun f => f.drop hdr.length)).flatten

/-- The pool-then-merge phase (lines 177-191): one external invocation per
partition file, each producing (output bytes, exit code); the results of
`executor.map` are discarded, so exit codes are never inspected and the merge
always runs over the output files. -/
def poolAndMerge (runBlat : List Nat → List Nat × Int)
    (parts : List (List Nat)) : List Nat :=
  let results := parts.map runBlat
  mergeOutputs (results.map Prod.fst)

/-- The `num_proc == 1` branch of `mp_blat` (lines 164-165): a single direct
invocation of the external computation on the whole input file; `f` maps
input-file bytes to output-file bytes. -/
def directPath (f : List Nat → List Nat) (input : List Nat) : List Nat :=
  f input

/-- The `num_proc > 1` branch of `mp_blat` at the file-content level (lines
166-191): split the input into the planned blocks, run the computation on
every partition file, merge the results in partition order. -/
def splitPoolMerge (f : List Nat → List Nat) (rs : List FastaIndex) (P : Nat)
    (input : List Nat) : List Nat :=
  mergeOutputs ((splitFiles input (blockSize rs P) 0).map f)

/-- Names bound at module level of mp_blat.py: the imports (lines 3-11) and
the top-level definitions; `samtools_bin` is not among them. -/
def moduleGlobals : List String :=
  ["argparse", "shlex", "shutil", "sp", "os", "tp", "cf", "logging", "partial",
   "Blat", "FastaIndex", "FastaFile", "mp_blat", "create_parser"]

/-- Local names of `FastaFile.__init__` (lines 63-69): its two parameters;
the body assigns only attributes of `self`, so no further local is bound. -/
def initLocals : List String := ["self", "fa_file"]

/-- The Python builtins the module touches (none of them is `samtools_bin`). -/
def pyBuiltins : List String :=
  ["int", "str", "len", "open", "range", "zip", "print", "divmod", "enumerate"]

/-- Name resolution for a bare name read inside `FastaFile.__init__`: locals,
then module globals, then builtins — the method has no enclosing function
scope, so nothing else can supply the name. -/
def initResolves (name : String) : Bool :=
  name ∈ initLocals || name ∈ moduleGlobals || name ∈ pyBuiltins

/-- Attributes a successful `FastaFile.__init__` would set. -/
structure FastaFileState where
  original_file : String
  samtools_bin : String
deriving Repr, DecidableEq

/-- `FastaFile.__init__` (lines 63-69): line 65 reads the bare name
`samtools_bin`; when it resolves the construction succeeds, otherwise Python
raises `NameError` (the success branch is unreachable because the name
resolves nowhere). -/
def fastaFileInit (fa_file : String) : Except PyExc FastaFileState :=
  if initResolves "samtools_bin" then .ok ⟨fa_file, ""⟩
  else .error .nameError

/-- Observable effects of one `mp_blat` call. -/
structure MpBlatTrace where
  error : Option PyExc
  indexRead : Bool
  partsWritten : Nat
deriving Repr, DecidableEq

/-- The dispatch of `mp_blat` (lines 164-178) at the effect level: with
`num_proc = 1` the direct invocation runs; otherwise `FastaFile(fasta_file)`
is evaluated first (line 172), and only if it succeeds are the index read and
the partition files written by `split`. -/
def mpBlatTrace (fasta_file : String) (num_proc : Nat) (rs : List FastaIndex)
    (src : List Nat) : MpBlatTrace :=
  if num_proc = 1 then ⟨none, false, 0⟩
  else
    match fastaFileInit fasta_file with
    | .error e => ⟨some e, false, 0⟩
    | .ok _ => ⟨none, true, (splitFiles src (blockSize rs num_proc) 0).length⟩

/-- A small concrete index used to exercise the planner: two records of
length 1, one byte per line, laid out contiguously (each spans 2 bytes). -/
def twoRecords : List FastaIndex :=
  [⟨"a", 1, 0, 1, 2⟩, ⟨"b", 1, 2, 1, 2⟩]

/-- The design document's four-record scenario: lengths 100, `line_bases` 50,
`line_width` 51, records laid out contiguously from offset 0, so each record
spans 102 bytes. -/
def fourRecords : List FastaIndex :=
  [⟨"r1", 100, 0, 50, 51⟩, ⟨"r2", 100, 102, 50, 51⟩,
   ⟨"r3", 100, 204, 50, 51⟩, ⟨"r4", 100, 306, 50, 51⟩]

/-! ### Helper lemmas -/

lemma incFirst_length (k : Nat) (l : List Nat) : (incFirst k l).length = l.length := by
  induction l generalizing k with
  | nil => cases k <;> rfl
  | cons x xs ih =>
      cases k with
      | zero => rfl
      | succ k => simp [incFirst, ih k]

lemma incFirst_sum (k : Nat) (l : List Nat) :
    (incFirst k l).sum = l.sum + min k l.length := by
  induction l generalizing k with
  | nil => cases k <;> simp [incFirst]
  | cons x xs ih =>
      cases k with
      | zero => simp [incFirst]
      | succ k =>
          simp only [incFirst, List.sum_cons, ih k, List.length_cons]
          omega

lemma incFirst_mem (k : Nat) (l : List Nat) :
    ∀ y ∈ incFirst k l, ∃ x ∈ l, y = x ∨ y = x + 1 := by
  induction l generalizing k with
  | nil => cases k <;> simp [incFirst]
  | cons x xs ih =>
      cases k with
      | zero =>
          intro y hy
          exact ⟨y, hy, Or.inl rfl⟩
      | succ k =>
          intro y hy
          rcases List.mem_cons.mp hy with hy | hy
          · exact ⟨x, List.mem_cons_self x xs, Or.inr hy⟩
          · obtain ⟨z, hz, hyz⟩ := ih k y hy
            exact ⟨z, List.mem_cons_of_mem x hz, hyz⟩

lemma incFirst_getD (k : Nat) (l : List Nat) (i : Nat) (h : i < l.length) :
    (incFirst k l).getD i 0 = l.getD i 0 + (if i < k then 1 else 0) := by
  induction l generalizing k i with
  | nil => simp at h
  | cons x xs ih =>
      cases k with
      | zero => simp [incFirst]
      | succ k =>
          cases i with
          | zero => simp [incFirst]
          | succ i =>
              simp only [incFirst, List.getD_cons_succ]
              have h' : i < xs.length := by simpa using h
              rw [ih k i h']
              simp [Nat.succ_lt_succ_iff]

lemma numList_length (R P : Nat) : (numList R P).length = P := by
  simp [numList, incFirst_length]

lemma numList_sum (R P : Nat) (hP : 1 ≤ P) : (numList R P).sum = R := by
  have hmod : R % P < P := Nat.mod_lt _ hP
  simp only [numList, incFirst_sum, List.length_replicate, List.sum_const_nat]
  have hmin : min (R % P) P = R % P := Nat.min_eq_left (Nat.le_of_lt hmod)
  rw [hmin]
  exact Nat.div_add_mod R P

lemma numList_pos (R P : Nat) (hP : 1 ≤ P) (hPR : P ≤ R) :
    ∀ n ∈ numList R P, 1 ≤ n := by
  intro n hn
  obtain ⟨x, hx, hnx⟩ := incFirst_mem (R % P) (List.replicate P (R / P)) n hn
  have hx' : x = R / P := List.eq_of_mem_replicate hx
  have hdiv : 1 ≤ R / P := (Nat.le_div_iff_mul_le hP).mpr (by omega)
  rcases hnx with h | h <;> omega

lemma dropLast_sum_le (l : List Nat) : l.dropLast.sum ≤ l.sum := by
  induction l with
  | nil => simp
  | cons x xs ih =>
      cases xs with
      | nil => simp
      | cons y ys =>
          simp only [List.dropLast_cons₂, List.sum_cons]
          have := ih
          simp only [List.sum_cons] at this
          omega

lemma zipSub_sum (x : Int) (l : List Int) :
    (List.zipWith (fun p1 p2 => p1 - p2) l ((x :: l).dropLast)).sum =
      (x :: l).getLast (by simp) - x := by
  induction l generalizing x with
  | nil => simp
  | cons y t ih =>
      simp only [List.dropLast_cons₂, List.zipWith_cons_cons, List.sum_cons]
      rw [ih y]
      rw [List.getLast_cons (by simp : y :: t ≠ [])]
      omega

lemma zipSub_nonneg (x : Int) (l : List Int)
    (h : List.Chain' (fun a b => a ≤ b) (x :: l)) :
    ∀ q ∈ List.zipWith (fun p1 p2 => p1 - p2) l ((x :: l).dropLast), 0 ≤ q := by
  induction l generalizing x with
  | nil => simp
  | cons y t ih =>
      rw [List.chain'_cons] at h
      intro q hq
      simp only [List.dropLast_cons₂, List.zipWith_cons_cons, List.mem_cons] at hq
      rcases hq with hq | hq
      · omega
      · exact ih y h.2 q hq

lemma splitFiles_flatten (src : List Nat) (bs : List Int) (pos : Nat) :
    (splitFiles src bs pos).flatten = (src.drop pos).take ((bs.map Int.toNat).sum) := by
  induction bs generalizing pos with
  | nil => simp [splitFiles]
  | cons b t ih =>
      simp only [splitFiles, List.flatten_cons, List.map_cons, List.sum_cons]
      rw [ih, List.take_add]
      congr 1
      have hdd : src.drop (pos + ((src.drop pos).take b.toNat).length) =
          (src.drop pos).drop (((src.drop pos).take b.toNat).length) := by
        rw [List.drop_drop]
      rw [hdd]
      rcases Nat.le_total b.toNat (src.drop pos).length with hle | hle
      · rw [List.length_take_of_le hle]
      · have h1 : ((src.drop pos).take b.toNat) = src.drop pos :=
          List.take_of_length_le hle
        rw [h1]
        rw [List.drop_length, List.drop_eq_nil_of_le hle]

lemma sum_toNat_of_nonneg (l : List Int) (h : ∀ x ∈ l, 0 ≤ x) :
    (l.map Int.toNat).sum = l.sum.toNat := by
  induction l with
  | nil => simp
  | cons x t ih =>
      have hx : 0 ≤ x := h x (List.mem_cons_self x t)
      have ht : 0 ≤ t.sum := List.sum_nonneg (fun y hy => h y (List.mem_cons_of_mem x hy))
      simp only [List.map_cons, List.sum_cons]
      rw [ih (fun y hy => h y (List.mem_cons_of_mem x hy))]
      omega

lemma takeLine_append_drop (bs : List Nat) :
    takeLine bs ++ bs.drop (takeLine bs).length = bs := by
  induction bs with
  | nil => rfl
  | cons b t ih =>
      by_cases hb : b = 10
      · subst hb
        simp [takeLine]
      · simp only [takeLine, if_neg hb, List.length_cons, List.cons_append,
          List.drop_succ_cons]
        rw [ih]

lemma takeLines_append_drop (n : Nat) (bs : List Nat) :
    takeLines n bs ++ bs.drop (takeLines n bs).length = bs := by
  induction n generalizing bs with
  | zero => simp [takeLines]
  | succ n ih =>
      simp only [takeLines, List.length_append, List.append_assoc]
      rw [← List.drop_drop]
      rw [ih (bs.drop (takeLine bs).length)]
      exact takeLine_append_drop bs

lemma mergeOutputs_single (r : List Nat) : mergeOutputs [r] = r := by
  simp only [mergeOutputs, List.map_cons, List.map_nil, List.flatten]
  rw [List.append_nil]
  exact takeLines_append_drop 5 r

lemma getD_mem (rs : List FastaIndex) (i : Nat) (h : i < rs.length) :
    rs.getD i default ∈ rs := by
  rw [List.getD_eq_get rs default h]
  exact List.get_mem rs i h

lemma lastEndPos_eq_getD (rs : List FastaIndex) (h : rs ≠ []) :
    lastEndPos rs = (rs.getD (rs.length - 1) default).end_pos := by
  unfold lastEndPos
  rw [List.getLast?_eq_getLast_of_ne_nil h]
  have hlen : rs.length - 1 < rs.length := by
    have := List.length_pos.mpr h
    omega
  rw [List.getD_eq_get rs default hlen]
  simp [List.getLast_eq_get]

lemma end_pos_ge_offset (r : FastaIndex) (hl : 0 ≤ r.length)
    (hb : 0 < r.line_bases) : r.offset ≤ r.end_pos := by
  unfold FastaIndex.end_pos
  have hq : 0 ≤ r.length.fdiv r.line_bases := by
    rw [Int.fdiv_eq_ediv _ (le_of_lt hb)]
    exact Int.ediv_nonneg hl (le_of_lt hb)
  split <;> omega

lemma end_pos_mono (rs : List FastaIndex)
    (hwf : ∀ r ∈ rs, 0 ≤ r.offset ∧ 0 ≤ r.length ∧ 0 < r.line_bases)
    (hlayout : ∀ i, i + 1 < rs.length →
      (rs.getD i default).end_pos ≤ (rs.getD (i + 1) default).offset)
    (i j : Nat) (hij : i ≤ j) (hj : j < rs.length) :
    (rs.getD i default).end_pos ≤ (rs.getD j default).end_pos := by
  induction j with
  | zero =>
      have : i = 0 := Nat.le_zero.mp hij
      subst this
      exact le_refl _
  | succ j ih =>
      rcases Nat.eq_or_lt_of_le hij with heq | hlt
      · subst heq
        exact le_refl _
      · have hij' : i ≤ j := Nat.lt_succ_iff.mp hlt
        have hj' : j < rs.length := Nat.lt_of_succ_lt hj
        have h1 := ih hij' hj'
        have h2 := hlayout j hj
        have hr := hwf (rs.getD (j + 1) default) (getD_mem rs (j + 1) hj)
        have h3 := end_pos_ge_offset (rs.getD (j + 1) default) hr.2.1 hr.2.2
        omega

lemma end_pos_nonneg (rs : List FastaIndex)
    (hwf : ∀ r ∈ rs, 0 ≤ r.offset ∧ 0 ≤ r.length ∧ 0 < r.line_bases)
    (i : Nat) (h : i < rs.length) : 0 ≤ (rs.getD i default).end_pos := by
  have hr := hwf (rs.getD i default) (getD_mem rs i h)
  have := end_pos_ge_offset (rs.getD i default) hr.2.1 hr.2.2
  omega

lemma splicePosAux_mem (rs : List FastaIndex) (ns : List Nat) (acc : Nat)
    (h1 : ∀ n ∈ ns, 1 ≤ n) (h2 : acc + ns.sum ≤ rs.length) :
    ∀ x ∈ splicePosAux rs ns acc,
      ∃ i, i < rs.length ∧ x = (rs.getD i default).end_pos := by
  induction ns generalizing acc with
  | nil => simp [splicePosAux]
  | cons n t ih =>
      intro x hx
      simp only [splicePosAux, List.mem_cons] at hx
      rcases hx with hx | hx
      · refine ⟨acc + n - 1, ?_, hx⟩
        have hn := h1 n (List.mem_cons_self n t)
        simp only [List.sum_cons] at h2
        omega
      · refine ih (acc + n) (fun m hm => h1 m (List.mem_cons_of_mem n hm)) ?_ x hx
        simp only [List.sum_cons] at h2
        omega

lemma splicePosAux_chain (rs : List FastaIndex)
    (hwf : ∀ r ∈ rs, 0 ≤ r.offset ∧ 0 ≤ r.length ∧ 0 < r.line_bases)
    (hlayout : ∀ i, i + 1 < rs.length →
      (rs.getD i default).end_pos ≤ (rs.getD (i + 1) default).offset)
    (hne : rs ≠ [])
    (ns : List Nat) (acc : Nat)
    (h1 : ∀ n ∈ ns, 1 ≤ n) (h2 : acc + ns.sum ≤ rs.length) :
    List.Chain' (fun a b => a ≤ b) (splicePosAux rs ns acc ++ [lastEndPos rs]) := by
  induction ns generalizing acc with
  | nil => simp [splicePosAux]
  | cons n t ih =>
      simp only [splicePosAux, List.cons_append]
      rw [List.chain'_cons']
      constructor
      · intro y hy
        have hn := h1 n (List.mem_cons_self n t)
        simp only [List.sum_cons] at h2
        cases t with
        | nil =>
            simp only [splicePosAux, List.nil_append, List.head?_cons,
              Option.mem_def, Option.some.injEq] at hy
            subst hy
            rw [lastEndPos_eq_getD rs hne]
            apply end_pos_mono rs hwf hlayout
            · omega
            · have := List.length_pos.mpr hne
              omega
        | cons m t' =>
            have hm := h1 m (List.mem_cons_of_mem n (List.mem_cons_self m t'))
            simp only [splicePosAux, List.cons_append, List.head?_cons,
              Option.mem_def, Option.some.injEq] at hy
            subst hy
            apply end_pos_mono rs hwf hlayout
            · omega
            · simp only [List.sum_cons] at h2
              omega
      · refine ih (acc + n) (fun m hm => h1 m (List.mem_cons_of_mem n hm)) ?_
        simp only [List.sum_cons] at h2
        omega

lemma splicePosExtend_chain (rs : List FastaIndex) (P : Nat)
    (hwf : ∀ r ∈ rs, 0 ≤ r.offset ∧ 0 ≤ r.length ∧ 0 < r.line_bases)
    (hlayout : ∀ i, i + 1 < rs.length →
      (rs.getD i default).end_pos ≤ (rs.getD (i + 1) default).offset)
    (hne : rs ≠ []) (hP : 1 ≤ P) (hPR : P ≤ rs.length) :
    List.Chain' (fun a b => a ≤ b) (splicePosExtend rs P) := by
  have hpos : ∀ n ∈ (numList rs.length P).dropLast, 1 ≤ n :=
    fun n hn => numList_pos rs.length P hP hPR n (List.dropLast_subset _ hn)
  have hsum : 0 + ((numList rs.length P).dropLast).sum ≤ rs.length := by
    have h1 := dropLast_sum_le (numList rs.length P)
    have h2 := numList_sum rs.length P hP
    omega
  have hchain := splicePosAux_chain rs hwf hlayout hne
    (numList rs.length P).dropLast 0 hpos hsum
  unfold splicePosExtend splicePos
  rw [List.chain'_cons']
  refine ⟨?_, hchain⟩
  intro y hy
  have hmem : y ∈ splicePosAux rs (numList rs.length P).dropLast 0 ++ [lastEndPos rs] :=
    List.mem_of_mem_head? hy
  rcases List.mem_append.mp hmem with hmem | hmem
  · obtain ⟨i, hi, hyi⟩ := splicePosAux_mem rs _ 0 hpos hsum y hmem
    subst hyi
    exact end_pos_nonneg rs hwf i hi
  · simp only [List.mem_singleton] at hmem
    subst hmem
    rw [lastEndPos_eq_getD rs hne]
    apply end_pos_nonneg rs hwf
    have := List.length_pos.mpr hne
    omega

lemma blockSize_sum (rs : List FastaIndex) (P : Nat) :
    (blockSize rs P).sum = lastEndPos rs := by
  unfold blockSize splicePosExtend
  simp only [List.tail_cons]
  rw [zipSub_sum 0 (splicePos rs (numList rs.length P) ++ [lastEndPos rs])]
  have h1 : (0 :: (splicePos rs (numList rs.length P) ++ [lastEndPos rs])).getLast
      (by simp) = lastEndPos rs := by
    rw [List.getLast_cons (by simp)]
    exact List.getLast_append_singleton _
  rw [h1]
  omega

lemma blockSize_nonneg (rs : List FastaIndex) (P : Nat)
    (hwf : ∀ r ∈ rs, 0 ≤ r.offset ∧ 0 ≤ r.length ∧ 0 < r.line_bases)
    (hlayout : ∀ i, i + 1 < rs.length →
      (rs.getD i default).end_pos ≤ (rs.getD (i + 1) default).offset)
    (hne : rs ≠ []) (hP : 1 ≤ P) (hPR : P ≤ rs.length) :
    ∀ b ∈ blockSize rs P, 0 ≤ b := by
  have hchain := splicePosExtend_chain rs P hwf hlayout hne hP hPR
  unfold blockSize splicePosExtend
  simp only [List.tail_cons]
  exact zipSub_nonneg 0 (splicePos rs (numList rs.length P) ++ [lastEndPos rs]) hchain

lemma end_pos_eq_ceil (r : FastaIndex) (hb : 0 < r.line_bases) :
    r.end_pos = r.offset + r.length + ⌈(r.length : ℚ) / (r.line_bases : ℚ)⌉ := by
  unfold FastaIndex.end_pos
  congr 1
  have hb' : (0 : ℚ) < (r.line_bases : ℚ) := by exact_mod_cast hb
  have key := Int.fdiv_add_fmod r.length r.line_bases
  have hm0 : 0 ≤ r.length.fmod r.line_bases := Int.fmod_nonneg' r.length hb
  have hmb : r.length.fmod r.line_bases < r.line_bases :=
    Int.fmod_lt_of_pos r.length hb
  by_cases hpos : 0 < r.length.fmod r.line_bases
  · rw [if_pos hpos]
    symm
    rw [Int.ceil_eq_iff]
    constructor
    · rw [lt_div_iff hb']
      have hz : r.line_bases * r.length.fdiv r.line_bases < r.length := by
        linarith
      have hzq : ((r.line_bases * r.length.fdiv r.line_bases : Int) : ℚ) <
          (r.length : ℚ) := by exact_mod_cast hz
      push_cast at hzq ⊢
      nlinarith
    · rw [div_le_iff hb']
      have hz : r.length ≤ (r.length.fdiv r.line_bases + 1) * r.line_bases := by
        nlinarith
      have hzq : (r.length : ℚ) ≤
          (((r.length.fdiv r.line_bases + 1) * r.line_bases : Int) : ℚ) := by
        exact_mod_cast hz
      push_cast at hzq ⊢
      nlinarith
  · rw [if_neg hpos]
    have hm0' : r.length.fmod r.line_bases = 0 := by omega
    have h2 : r.length = r.line_bases * r.length.fdiv r.line_bases := by omega
    have ha : (r.length : ℚ) / (r.line_bases : ℚ) =
        ((r.length.fdiv r.line_bases : Int) : ℚ) := by
      have h3 : (r.length : ℚ) =
          (r.line_bases : ℚ) * ((r.length.fdiv r.line_bases : Int) : ℚ) := by
        exact_mod_cast h2
      rw [h3, mul_div_cancel_left₀ _ (ne_of_gt hb')]
    rw [ha]
    exact (Int.ceil_intCast _).symm

lemma blockSize_one (rs : List FastaIndex) : blockSize rs 1 = [lastEndPos rs] := by
  have h1 : numList rs.length 1 = [rs.length] := by
    simp [numList, incFirst, Nat.mod_one, Nat.div_one, List.replicate]
  unfold blockSize splicePosExtend splicePos
  rw [h1]
  simp [splicePosAux]

lemma buildFastaIndex_error_iff (fields : List (List Char)) :
    (∃ e, buildFastaIndex fields = .error e) ↔
      fields.length ≠ 5 ∨ ∃ f ∈ fields.drop 1, pyInt f = none := by
  match fields with
  | [] => simp [buildFastaIndex]
  | [a] => simp [buildFastaIndex]
  | [a, b] => simp [buildFastaIndex]
  | [a, b, c] => simp [buildFastaIndex]
  | [a, b, c, d] => simp [buildFastaIndex]
  | a :: b :: c :: d :: e :: f :: t =>
      simp only [buildFastaIndex, List.length_cons]
      constructor
      · intro _
        left
        omega
      · intro _
        exact ⟨.typeError, rfl⟩
  | [a, b, c, d, e] =>
      rcases h1 : pyInt b with _ | v1 <;> rcases h2 : pyInt c with _ | v2 <;>
        rcases h3 : pyInt d with _ | v3 <;> rcases h4 : pyInt e with _ | v4 <;>
        simp [buildFastaIndex, h1, h2, h3, h4]

lemma buildFastaIndex_ok_shape (fields : List (List Char)) (r : FastaIndex)
    (h : buildFastaIndex fields = .ok r) :
    ∃ nm f1 f2 f3 f4, fields = [nm, f1, f2, f3, f4] ∧
      r.name = String.mk nm ∧ pyInt f1 = some r.length ∧
      pyInt f2 = some r.offset ∧ pyInt f3 = some r.line_bases ∧
      pyInt f4 = some r.line_width := by
  match fields with
  | [] => simp [buildFastaIndex] at h
  | [a] => simp [buildFastaIndex] at h
  | [a, b] => simp [buildFastaIndex] at h
  | [a, b, c] => simp [buildFastaIndex] at h
  | [a, b, c, d] => simp [buildFastaIndex] at h
  | a :: b :: c :: d :: e :: f :: t => simp [buildFastaIndex] at h
  | [a, b, c, d, e] =>
      rcases h1 : pyInt b with _ | v1 <;> rcases h2 : pyInt c with _ | v2 <;>
        rcases h3 : pyInt d with _ | v3 <;> rcases h4 : pyInt e with _ | v4 <;>
        simp only [buildFastaIndex, h1, h2, h3, h4, Except.ok.injEq] at h
      · exact absurd h (by simp)
      · exact absurd h (by simp)
      · exact absurd h (by simp)
      · exact absurd h (by simp)
      · exact absurd h (by simp)
      · exact absurd h (by simp)
      · exact absurd h (by simp)
      · exact absurd h (by simp)
      · exact absurd h (by simp)
      · exact absurd h (by simp)
      · exact absurd h (by simp)
      · exact absurd h (by simp)
      · exact absurd h (by simp)
      · exact absurd h (by simp)
      · exact absurd h (by simp)
      · subst h
        exact ⟨a, b, c, d, e, rfl, rfl, h1, h2, h3, h4⟩

/-! ### Claim theorems -/

/-- Claim C1: for every source file and every partition plan with
`1 ≤ P ≤ R` over a well-formed, contiguously laid out index, writing the
planned block sizes out with the splitter and concatenating the partition
files in order reproduces the source file's bytes exactly over the indexed
extent — the first `end_pos(last record)` bytes of the source. -/
theorem C1_split_concat_extent (src : List Nat) (rs : List FastaIndex) (P : Nat)
    (hne : rs ≠ []) (hP : 1 ≤ P) (hPR : P ≤ rs.length)
    (hwf : ∀ r ∈ rs, 0 ≤ r.offset ∧ 0 ≤ r.length ∧ 0 < r.line_bases)
    (hlayout : ∀ i, i + 1 < rs.length →
      (rs.getD i default).end_pos ≤ (rs.getD (i + 1) default).offset) :
    (splitFiles src (blockSize rs P) 0).flatten =
      src.take (lastEndPos rs).toNat := by
  rw [splitFiles_flatten,
    sum_toNat_of_nonneg _ (blockSize_nonneg rs P hwf hlayout hne hP hPR),
    blockSize_sum]
  simp

/-- Claim C1 witness: a two-record contiguous index split into two parts
reproduces the first four bytes of a five-byte source file. -/
theorem C1_witness :
    (splitFiles [65, 66, 67, 68, 69] (blockSize twoRecords 2) 0).flatten =
      [65, 66, 67, 68, 69].take (lastEndPos twoRecords).toNat :=
  C1_split_concat_extent [65, 66, 67, 68, 69] twoRecords 2
    (by decide) (by decide) (by decide) (by decide)
    (by
      intro i hi
      have hi0 : i = 0 := by
        simp only [twoRecords, List.length_cons, List.length_nil] at hi
        omega
      subst hi0
      decide)

/-- Claim C2: for `1 ≤ P ≤ R` the planned block sizes sum to `end_pos` of
the last record (the full indexed extent), and every splice position is the
`end_pos` of some record, so no record's data is split across two
partitions. -/
theorem C2_block_size_invariants (rs : List FastaIndex) (P : Nat)
    (hne : rs ≠ []) (hP : 1 ≤ P) (hPR : P ≤ rs.length) :
    (blockSize rs P).sum = lastEndPos rs ∧
    ∀ pos ∈ splicePos rs (numList rs.length P),
      ∃ i, i < rs.length ∧ pos = (rs.getD i default).end_pos := by
  refine ⟨blockSize_sum rs P, ?_⟩
  have hpos : ∀ n ∈ (numList rs.length P).dropLast, 1 ≤ n :=
    fun n hn => numList_pos rs.length P hP hPR n (List.dropLast_subset _ hn)
  have hsum : 0 + ((numList rs.length P).dropLast).sum ≤ rs.length := by
    have h1 := dropLast_sum_le (numList rs.length P)
    have h2 := numList_sum rs.length P hP
    omega
  exact splicePosAux_mem rs _ 0 hpos hsum

/-- Claim C2 witness: the invariants evaluated on the two-record index with
two partitions. -/
theorem C2_witness :
    (blockSize twoRecords 2).sum = lastEndPos twoRecords ∧
      ∀ pos ∈ splicePos twoRecords (numList twoRecords.length 2),
        ∃ i, i < twoRecords.length ∧
          pos = (twoRecords.getD i default).end_pos :=
  C2_block_size_invariants twoRecords 2 (by decide) (by decide) (by decide)

/-- Claim C3 counterexample: two result files whose first five lines occupy
different byte counts (10 versus 15 bytes).  The merge seeks every file to
the first file's header length, so the second file does not lose exactly its
own five header lines and part of its header leaks into the output; the
output therefore differs from the one the claim describes. -/
theorem C3_counterexample :
    mergeOutputs
        [[97, 10, 98, 10, 99, 10, 100, 10, 101, 10, 88],
         [97, 97, 10, 98, 98, 10, 99, 99, 10, 100, 100, 10, 101, 101, 10, 89]] ≠
      takeLines 5 [97, 10, 98, 10, 99, 10, 100, 10, 101, 10, 88] ++
        ([97, 10, 98, 10, 99, 10, 100, 10, 101, 10, 88].drop
            (takeLines 5 [97, 10, 98, 10, 99, 10, 100, 10, 101, 10, 88]).length ++
          [97, 97, 10, 98, 98, 10, 99, 99, 10, 100, 100, 10, 101, 101, 10, 89].drop
            (takeLines 5
              [97, 97, 10, 98, 98, 10, 99, 99, 10, 100, 100, 10, 101, 101, 10, 89]).length) := by
  decide

/-- Claim C3 (amended): when every result file's first five lines occupy the
same number of bytes as the first file's — the fixed-format header contract
of the external computation — the merge output is exactly the first file's
five header lines followed, in partition order, by each file's bytes after
its own five header lines, so no later file's header lines appear. -/
theorem C3_merge_header_bodies (f0 : List Nat) (fs : List (List Nat))
    (hhdr : ∀ f ∈ f0 :: fs, (takeLines 5 f).length = (takeLines 5 f0).length) :
    mergeOutputs (f0 :: fs) =
      takeLines 5 f0 ++
        ((f0 :: fs).map (fun f => f.drop (takeLines 5 f).length)).flatten := by
  show takeLines 5 f0 ++
      ((f0 :: fs).map (fun f => f.drop (takeLines 5 f0).length)).flatten = _
  congr 2
  exact List.map_congr_left (fun f hf => by rw [hhdr f hf])

/-- Claim C3 witness: two equal-header result files merged. -/
theorem C3_witness :
    mergeOutputs
        [[104, 10, 104, 10, 104, 10, 104, 10, 104, 10, 65],
         [104, 10, 104, 10, 104, 10, 104, 10, 104, 10, 66]] =
      takeLines 5 [104, 10, 104, 10, 104, 10, 104, 10, 104, 10, 65] ++
        ([[104, 10, 104, 10, 104, 10, 104, 10, 104, 10, 65],
          [104, 10, 104, 10, 104, 10, 104, 10, 104, 10, 66]].map
            (fun f => f.drop (takeLines 5 f).length)).flatten :=
  C3_merge_header_bodies [104, 10, 104, 10, 104, 10, 104, 10, 104, 10, 65]
    [[104, 10, 104, 10, 104, 10, 104, 10, 104, 10, 66]] (by decide)

/-- Claim C4: `FastaFile.__init__` reads the name `samtools_bin`, which is
bound in no reachable scope, so constructing a `FastaFile` always raises
`NameError`; consequently every `mp_blat` call with `num_proc > 1` fails
with `NameError` before the index is read and before any partition file is
written. -/
theorem C4_fastafile_name_error (fa : String) (num_proc : Nat)
    (rs : List FastaIndex) (src : List Nat) (h : 1 < num_proc) :
    fastaFileInit fa = .error .nameError ∧
    mpBlatTrace fa num_proc rs src = ⟨some .nameError, false, 0⟩ := by
  have hres : initResolves "samtools_bin" = false := by decide
  have hinit : fastaFileInit fa = .error .nameError := by
    simp [fastaFileInit, hres]
  refine ⟨hinit, ?_⟩
  have hne1 : ¬ num_proc = 1 := by omega
  simp [mpBlatTrace, hne1, hinit]

/-- Claim C4 witness: the failure observed at a concrete call. -/
theorem C4_witness :
    fastaFileInit "reads.fa" = .error .nameError ∧
    mpBlatTrace "reads.fa" 2 [] [] = ⟨some .nameError, false, 0⟩ :=
  C4_fastafile_name_error "reads.fa" 2 [] [] (by decide)

/-- Claim C5 (code bug): the pool discards the results of `executor.map`, so
exit codes are never inspected — with an external computation whose every
invocation exits with code 1, the pool-then-merge phase still produces a
combined output instead of failing before the merge. -/
theorem C5_merge_runs_after_failure :
    poolAndMerge
        (fun _ => ([104, 10, 104, 10, 104, 10, 104, 10, 104, 10, 98], 1))
        [[120]] =
      [104, 10, 104, 10, 104, 10, 104, 10, 104, 10, 98] := by
  decide

/-- Claim C6 (code bug): with one record and two requested partitions the
planner raises nothing: it computes block sizes `[2, 0]` and the splitter
writes two partition files, the second empty — the code has no
`InvalidPartitionCountError` path and does not fail before file I/O. -/
theorem C6_no_rejection :
    blockSize [⟨"r", 1, 0, 1, 2⟩] 2 = [2, 0] ∧
    splitFiles [97, 98, 99] (blockSize [⟨"r", 1, 0, 1, 2⟩] 2) 0 =
      [[97, 98], []] := by
  decide

/-- Claim C7: with `base, remainder = divmod(R, P)`, entry `i` of the
per-partition record counts is `base + 1` exactly when `i < remainder` and
`base` otherwise; any two counts differ by at most one; and 5 records over 3
partitions gives counts `[2, 2, 1]`. -/
theorem C7_front_loaded_balancing (R P : Nat) (hP : 1 ≤ P) (hPR : P ≤ R) :
    (∀ i, i < P →
      (numList R P).getD i 0 = R / P + (if i < R % P then 1 else 0)) ∧
    (∀ a ∈ numList R P, ∀ b ∈ numList R P, a ≤ b + 1) ∧
    numList 5 3 = [2, 2, 1] := by
  refine ⟨?_, ?_, by decide⟩
  · intro i hi
    have hlen : i < (List.replicate P (R / P)).length := by simpa using hi
    rw [numList, incFirst_getD _ _ _ hlen]
    congr 1
    rw [List.getD_eq_getElem _ _ hlen]
    simp
  · intro a ha b hb
    obtain ⟨x, hx, hax⟩ := incFirst_mem _ _ a ha
    obtain ⟨y, hy, hby⟩ := incFirst_mem _ _ b hb
    have hx' : x = R / P := List.eq_of_mem_replicate hx
    have hy' : y = R / P := List.eq_of_mem_replicate hy
    rcases hax with h | h <;> rcases hby with h' | h' <;> omega

/-- Claim C7 witness: the balancing facts at `R = 5`, `P = 3`. -/
theorem C7_witness :
    (∀ i, i < 3 →
      (numList 5 3).getD i 0 = 5 / 3 + (if i < 5 % 3 then 1 else 0)) ∧
    (∀ a ∈ numList 5 3, ∀ b ∈ numList 5 3, a ≤ b + 1) ∧
    numList 5 3 = [2, 2, 1] :=
  C7_front_loaded_balancing 5 3 (by decide) (by decide)

/-- Claim C8: for positive `line_bases`, `end_pos` equals
`offset + length + ⌈length / line_bases⌉`; a record of length 100 with
`line_bases` 50 ends 102 bytes after its offset; and the spec's four-record
scenario split in two yields two equal block sizes `[204, 204]`. -/
theorem C8_end_pos_formula (r : FastaIndex) (hb : 0 < r.line_bases) :
    r.end_pos = r.offset + r.length + ⌈(r.length : ℚ) / (r.line_bases : ℚ)⌉ ∧
    (∀ o : Int, FastaIndex.end_pos ⟨"x", 100, o, 50, 51⟩ = o + 102) ∧
    blockSize fourRecords 2 = [204, 204] := by
  refine ⟨end_pos_eq_ceil r hb, ?_, by decide⟩
  intro o
  show o + 100 +
      (if (0 : Int) < (100 : Int).fmod 50 then (100 : Int).fdiv 50 + 1
       else (100 : Int).fdiv 50) = o + 102
  norm_num [show (100 : Int).fmod 50 = 0 from rfl,
    show (100 : Int).fdiv 50 = 2 from rfl]
  omega

/-- Claim C8 witness: the formula evaluated on a concrete record. -/
theorem C8_witness :
    FastaIndex.end_pos ⟨"x", 100, 0, 50, 51⟩ =
      (0 : Int) + 100 + ⌈((100 : Int) : ℚ) / ((50 : Int) : ℚ)⌉ :=
  (C8_end_pos_formula ⟨"x", 100, 0, 50, 51⟩ (by decide)).1

/-- Claim C9 counterexample: the line `r<TAB>-3<TAB>0<TAB>50<TAB>51` has a
negative second field, which the claim requires parsing to reject, yet the
code parses it successfully into a record with `length = -3` — Python
`int()` accepts a sign. -/
theorem C9_counterexample :
    parseFaiLine "r\t-3\t0\t50\t51" = .ok ⟨"r", -3, 0, 50, 51⟩ ∧
    (FastaIndex.length ⟨"r", -3, 0, 50, 51⟩ < 0) := ⟨rfl, by decide⟩

/-- Claim C9 (amended): parsing a line fails exactly when it does not split
into exactly five tab-separated fields or one of fields 2-5 is rejected by
Python `int` (which accepts an optional sign, surrounding whitespace and
underscores between digits, so accepted values may be negative); on success
the record carries the parsed integers. -/
theorem C9_parse_line (line : String) :
    ((∃ e, parseFaiLine line = .error e) ↔
      (splitTab (rstripNl line.data)).length ≠ 5 ∨
        ∃ f ∈ (splitTab (rstripNl line.data)).drop 1, pyInt f = none) ∧
    ∀ r, parseFaiLine line = .ok r →
      ∃ nm f1 f2 f3 f4, splitTab (rstripNl line.data) = [nm, f1, f2, f3, f4] ∧
        r.name = String.mk nm ∧ pyInt f1 = some r.length ∧
        pyInt f2 = some r.offset ∧ pyInt f3 = some r.line_bases ∧
        pyInt f4 = some r.line_width :=
  ⟨buildFastaIndex_error_iff _, fun r h => buildFastaIndex_ok_shape _ r h⟩

/-- Claim C9 witness: the success shape at a concrete well-formed line. -/
theorem C9_witness :
    ∃ nm f1 f2 f3 f4,
      splitTab (rstripNl "q\t7\t0\t3\t4".data) = [nm, f1, f2, f3, f4] ∧
      FastaIndex.name ⟨"q", 7, 0, 3, 4⟩ = String.mk nm ∧
      pyInt f1 = some (FastaIndex.length ⟨"q", 7, 0, 3, 4⟩) ∧
      pyInt f2 = some (FastaIndex.offset ⟨"q", 7, 0, 3, 4⟩) ∧
      pyInt f3 = some (FastaIndex.line_bases ⟨"q", 7, 0, 3, 4⟩) ∧
      pyInt f4 = some (FastaIndex.line_width ⟨"q", 7, 0, 3, 4⟩) :=
  (C9_parse_line "q\t7\t0\t3\t4").2 ⟨"q", 7, 0, 3, 4⟩ rfl

/-- Claim C10 counterexample: with the identity as the deterministic
external computation and an input holding one byte beyond the indexed
extent, the direct path keeps that byte while the single-partition pipeline
truncates it, so the two outputs are not byte-identical. -/
theorem C10_counterexample :
    splitPoolMerge (fun x => x) [⟨"r", 1, 0, 1, 2⟩] 1 [97, 98, 99] ≠
      directPath (fun x => x) [97, 98, 99] := by
  decide

/-- Claim C10 (amended): when the input file does not extend beyond the
indexed extent (its length equals `end_pos` of the last record), the
split-pool-merge pipeline run with a single partition produces output
byte-identical to the direct single-invocation path, for every deterministic
external computation. -/
theorem C10_single_partition (f : List Nat → List Nat) (rs : List FastaIndex)
    (input : List Nat) (hne : rs ≠ [])
    (hlen : (lastEndPos rs).toNat = input.length) :
    splitPoolMerge f rs 1 input = directPath f input := by
  unfold splitPoolMerge directPath
  rw [blockSize_one]
  have hsplit : splitFiles input [lastEndPos rs] 0 =
      [input.take (lastEndPos rs).toNat] := by
    simp [splitFiles]
  rw [hsplit, hlen, List.take_length]
  simp only [List.map_cons, List.map_nil]
  exact mergeOutputs_single (f input)

/-- Claim C10 witness: the equality at a concrete one-record input whose
bytes end exactly at the indexed extent. -/
theorem C10_witness :
    splitPoolMerge (fun x => 65 :: x) [⟨"r", 1, 0, 1, 2⟩] 1 [97, 98] =
      directPath (fun x => 65 :: x) [97, 98] :=
  C10_single_partition (fun x => 65 :: x) [⟨"r", 1, 0, 1, 2⟩] [97, 98]
    (by decide) (by decide)
